import Mathlib

/-!
Verification of the dense evaluation-form multilinear polynomial of the
`thaler` repository (`src/polynomial/src/multilinear/evaluation_form.rs`)
and of the hypercube pairing-index generators it depends on.

The Rust code is generic over `F: PrimeField`; the shallow embedding is
generic over a commutative ring `F` with decidable equality, which covers
the operations the code actually performs (subtraction, multiplication,
zero/one tests).  Machine integers (`usize`) are modelled as `Nat`;
`usize` subtraction, indexing and slicing, which can fail at runtime,
carry an explicit panic result.  The constructor's `1 << n_vars` shift,
whose overflow behavior differs between build modes, is modelled three
ways: exactly (`new`, which agrees with the machine for `n_vars < 64` —
the range covering every representable polynomial, since a vector of
length `2 ^ n_vars` forces `n_vars < 64`), with the debug-assertions
shift-overflow panic (`new_checked`), and with the release-mode masked
shift amount (`new_release`).
-/

/-- Outcome of a fallible Rust call: either a `Result::Err` carried to the
caller (`err`) or a runtime panic (`panicked`), e.g. an arithmetic
underflow or an out-of-bounds index/slice. -/
inductive RtErr where
  | panicked : RtErr
  | err : String → RtErr
  deriving DecidableEq, Repr

/-- Rust `v[i]` on a `Vec`: the element, or a panic when out of bounds. -/
def rtIndex {α : Type} (l : List α) (i : Nat) : Except RtErr α :=
  match l[i]? with
  | some v => .ok v
  | none => .error .panicked

/-- Rust `v[i] = x` on a `Vec`: in-place update, or a panic when out of
bounds. -/
def rtSet {α : Type} (l : List α) (i : Nat) (v : α) : Except RtErr (List α) :=
  if i < l.length then .ok (l.set i v) else .error .panicked

/-- Rust `&v[..n]`: the first `n` elements, or a panic when `n` exceeds the
length. -/
def rtSlice {α : Type} (l : List α) (n : Nat) : Except RtErr (List α) :=
  if n ≤ l.length then .ok (l.take n) else .error .panicked

/-- Rust `a - b` on `usize`: the difference, or a panic on underflow (debug
semantics; in release mode the wrapped value makes the subsequent shift or
slice fail instead, so the call still ends in a panic). -/
def usizeSub (a b : Nat) : Except RtErr Nat :=
  if b ≤ a then .ok (a - b) else .error .panicked

/-- Modelled from the spec: the bit-insertion pairing generator `index_pair`
of module `polynomial::multilinear::pairing_index_2`, whose source file is
not among the repository files (only its callers are).  For each reduced
index `i` in `[0, 2^(n_vars-1))` it emits the pair `(low, high)` obtained by
inserting a `0` (resp. `1`) bit at the target variable's bit position into
`i`, per the spec formula `low = (i >> t << (t+1)) | (i & mask t)`,
`high = low | (1 << t)` where the bit position `t` follows the evaluation
vector's most-significant-bit = variable 0 convention, i.e.
`t = n_vars - 1 - target_variable`. -/
def index_pair (n_vars : Nat) (target_variable : Nat) : List (Nat × Nat) :=
  (List.range (2 ^ (n_vars - 1))).map (fun i =>
    let t := n_vars - 1 - target_variable
    let low := ((i >>> t) <<< (t + 1)) ||| (i &&& ((1 <<< t) - 1))
    (low, low ||| (1 <<< t)))

/-- Modelled from the spec: the shift-based pairing generator `PairingIndex`
of module `polynomial::multilinear::pairing_index`, whose source file is not
among the repository files (only its caller, the benchmark, is). -/
structure PairingIndex where
  n_vars : Nat
  index : Nat
  deriving DecidableEq, Repr

/-- Modelled from the spec: construction of the shift-based generator fails
(an invalid-argument error) when `target_variable >= n_vars`. -/
def PairingIndex.new (n_vars : Nat) (index : Nat) : Except String PairingIndex :=
  if n_vars ≤ index then .error "target variable out of range"
  else .ok ⟨n_vars, index⟩

/-- Modelled from the spec: the constant stride between a pair's low and
high member, `shift_value = 2^(n_vars - target_variable - 1)`. -/
def PairingIndex.shift_value (p : PairingIndex) : Nat :=
  2 ^ (p.n_vars - p.index - 1)

/-- Modelled from the spec: the shift-based generator's emitted sequence of
low indices — the index space is divided into blocks of size
`2 * shift_value`, and within each block the first `shift_value` positions
are the low members, emitted in ascending (reduced-index) order. -/
def PairingIndex.toList (p : PairingIndex) : List Nat :=
  (List.range (2 ^ (p.n_vars - 1) / p.shift_value)).flatMap (fun block =>
    (List.range p.shift_value).map (fun offset =>
      block * (2 * p.shift_value) + offset))

/-- `generate_pair_vector` from `src/polynomial/benches/pairing_index.rs`:
drives the shift-based generator and derives `high = low + shift_value`
for each emitted low index (the bench unwraps the constructor; here the
failure is kept as an `Except`). -/
def generate_pair_vector (n_vars : Nat) (index : Nat) :
    Except String (List (Nat × Nat)) := do
  let pairing_iterator ← PairingIndex.new n_vars index
  let shift_value := pairing_iterator.shift_value
  .ok (pairing_iterator.toList.map (fun val => (val, val + shift_value)))

/-- `generate_pair_vector_2` from `src/polynomial/benches/pairing_index.rs`:
collects the bit-insertion generator's pairs directly. -/
def generate_pair_vector_2 (n_vars : Nat) (index : Nat) : List (Nat × Nat) :=
  index_pair n_vars index

section PolynomialDefs

variable {F : Type} [CommRing F] [DecidableEq F]

/-- `MultiLinearPolynomial` (dense evaluation representation): all
evaluations over the boolean hypercube of an `n_vars`-variable multilinear
polynomial. -/
structure MultiLinearPolynomial (F : Type) where
  n_vars : Nat
  evaluations : List F
  deriving DecidableEq, Repr

/-- `MultiLinearPolynomial::new`: fails unless the evaluation vector length
equals `1 << n_vars`, taking the `usize` shift exact (`2 ^ n_vars`).  This
agrees with the machine exactly when `n_vars < 64`, the range
`partial_evaluate`'s internal rebuild stays in for every representable
receiver; `new_checked` and `new_release` below model the machine's
over-shift behavior for raw caller input with `n_vars ≥ 64`. -/
def MultiLinearPolynomial.new (n_vars : Nat) (evaluations : List F) :
    Except String (MultiLinearPolynomial F) :=
  if evaluations.length ≠ 1 <<< n_vars then
    .error "evaluation vec len should equal 2^n_vars"
  else
    .ok ⟨n_vars, evaluations⟩

/-- Rust `a << b` on 64-bit `usize` as compiled with debug assertions: a
shift amount of 64 or more is an arithmetic-overflow panic; bits shifted
out of the 64-bit result are discarded silently in every build mode. -/
def usizeShlChecked (a b : Nat) : Except RtErr Nat :=
  if b < 64 then .ok ((a <<< b) % 2 ^ 64) else .error .panicked

/-- Rust `a << b` on 64-bit `usize` as compiled in release: the shift
amount is masked to its low six bits, so `1 << 64 == 1`. -/
def usizeShlWrapping (a b : Nat) : Nat :=
  (a <<< (b % 64)) % 2 ^ 64

/-- `MultiLinearPolynomial::new` as the machine runs it under debug
assertions: the length check `evaluations.len() != (1 << n_vars)` panics
at the shift for `n_vars ≥ 64` and is exact below that. -/
def MultiLinearPolynomial.new_checked (n_vars : Nat) (evaluations : List F) :
    Except RtErr (MultiLinearPolynomial F) := do
  let target ← usizeShlChecked 1 n_vars
  if evaluations.length ≠ target then
    .error (.err "evaluation vec len should equal 2^n_vars")
  else
    .ok ⟨n_vars, evaluations⟩

/-- `MultiLinearPolynomial::new` as the machine runs it in release: the
masked shift makes the length check compare against
`2 ^ (n_vars mod 64)`. -/
def MultiLinearPolynomial.new_release (n_vars : Nat) (evaluations : List F) :
    Except String (MultiLinearPolynomial F) :=
  if evaluations.length ≠ usizeShlWrapping 1 n_vars then
    .error "evaluation vec len should equal 2^n_vars"
  else
    .ok ⟨n_vars, evaluations⟩

/-- The invariant of every reachable polynomial: the evaluation vector's
length is `2 ^ n_vars`. -/
def MultiLinearPolynomial.wf (p : MultiLinearPolynomial F) : Prop :=
  p.evaluations.length = 2 ^ p.n_vars

instance (p : MultiLinearPolynomial F) : Decidable p.wf := by
  unfold MultiLinearPolynomial.wf; infer_instance

/-- The body of `partial_evaluate`'s match on one assignment: pure selection
at the field's zero and one elements, linear interpolation
`left - r * (left - right)` otherwise. -/
def interpStep (assignment left right : F) : F :=
  if assignment = 0 then left
  else if assignment = 1 then right
  else left - assignment * (left - right)

/-- The inner `for (i, (left_pos, right_pos)) in pairing_iterator.enumerate()`
loop of `partial_evaluate`: reads each pair from the buffer and writes the
interpolated value at the reduced index `i`, in place. -/
def pairingPass (assignment : F) :
    List (Nat × Nat) → Nat → List F → Except RtErr (List F)
  | [], _, buf => .ok buf
  | (left_pos, right_pos) :: rest, i, buf => do
    let left ← rtIndex buf left_pos
    let right ← rtIndex buf right_pos
    let buf' ← rtSet buf i (interpStep assignment left right)
    pairingPass assignment rest (i + 1) buf'

/-- The outer `for (i, assignment) in assignments.iter().enumerate()` loop of
`partial_evaluate`: the i-th assignment drives the pairing generator with
variable count `n_vars - i` over the original, not-yet-truncated buffer. -/
def peLoop (initial_var : Nat) :
    List F → Nat → Nat → List F → Except RtErr (List F)
  | [], _, _, buf => .ok buf
  | assignment :: rest, i, n_vars, buf => do
    let m ← usizeSub n_vars i
    let buf' ← pairingPass assignment (index_pair m initial_var) 0 buf
    peLoop initial_var rest (i + 1) n_vars buf'

/-- `MultiLinearPolynomial::partial_evaluate`: fixes
`assignments.length` consecutive variables starting at `initial_var`, then
truncates the working buffer to its first `1 << (n_vars - assignments.len())`
entries and rebuilds through the checked constructor. -/
def MultiLinearPolynomial.partial_evaluate (p : MultiLinearPolynomial F)
    (initial_var : Nat) (assignments : List F) :
    Except RtErr (MultiLinearPolynomial F) := do
  let buf ← peLoop initial_var assignments 0 p.n_vars p.evaluations
  let new_n_vars ← usizeSub p.n_vars assignments.length
  let truncated ← rtSlice buf (1 <<< new_n_vars)
  match MultiLinearPolynomial.new new_n_vars truncated with
  | .ok q => .ok q
  | .error e => .error (.err e)

/-- `MultiLinearPolynomial::evaluate`: requires one assignment per variable,
delegates to `partial_evaluate(0, assignments)` and returns entry `[0]` of
the result. -/
def MultiLinearPolynomial.evaluate (p : MultiLinearPolynomial F)
    (assignments : List F) : Except RtErr F :=
  if assignments.length ≠ p.n_vars then
    .error (.err "evaluate must assign to all variables")
  else do
    let q ← p.partial_evaluate 0 assignments
    rtIndex q.evaluations 0

end PolynomialDefs

/-- `MultiLinearPolynomial::to_bytes`: concatenation, in evaluation order, of
each element's serialized bytes.  The element serializer (arkworks'
`into_bigint().to_bytes_be()`, a canonical big-endian fixed-width encoding)
is an external capability and is passed as a parameter. -/
def MultiLinearPolynomial.to_bytes {F : Type} (ser : F → List Nat)
    (p : MultiLinearPolynomial F) : List Nat :=
  (p.evaluations.map ser).flatten

/-! ### Arithmetic characterization of the pairing generators -/

/-- The low member of the `j`-th pair in arithmetic form: with stride `s`
between pair members, the low indices skip the upper half of each block of
size `2*s`. -/
def lowFn (s j : Nat) : Nat := 2 * s * (j / s) + j % s

theorem lowFn_eq_add (s j : Nat) : lowFn s j = j + s * (j / s) := by
  have h := Nat.div_add_mod j s
  unfold lowFn
  have h2 : 2 * s * (j / s) = s * (j / s) + s * (j / s) := by ring
  omega

theorem le_lowFn (s j : Nat) : j ≤ lowFn s j := by
  rw [lowFn_eq_add]; exact Nat.le_add_right _ _

theorem lowFn_strictMono (s : Nat) {j j' : Nat} (h : j < j') :
    lowFn s j < lowFn s j' := by
  rw [lowFn_eq_add, lowFn_eq_add]
  have hd : s * (j / s) ≤ s * (j' / s) :=
    Nat.mul_le_mul_left s (Nat.div_le_div_right (Nat.le_of_lt h))
  omega

theorem lowFn_div {s : Nat} (hs : 0 < s) (j : Nat) :
    lowFn s j / s = 2 * (j / s) := by
  unfold lowFn
  rw [Nat.mul_comm 2 s, Nat.mul_assoc, Nat.mul_add_div hs,
    Nat.div_eq_of_lt (Nat.mod_lt _ hs), Nat.add_zero]

theorem lowFn_add_div {s : Nat} (hs : 0 < s) (j : Nat) :
    (lowFn s j + s) / s = 2 * (j / s) + 1 := by
  unfold lowFn
  have h : 2 * s * (j / s) + j % s + s = s * (2 * (j / s) + 1) + j % s := by ring
  rw [h, Nat.mul_add_div hs, Nat.div_eq_of_lt (Nat.mod_lt _ hs), Nat.add_zero]

/-- Both members of the `j`-th pair land inside `[0, 2^n)` when the target
variable is in range and `j` is a valid reduced index. -/
theorem lowFn_add_lt {n t j : Nat} (ht : t < n) (hj : j < 2 ^ (n - 1)) :
    lowFn (2 ^ (n - 1 - t)) j + 2 ^ (n - 1 - t) < 2 ^ n := by
  set s := 2 ^ (n - 1 - t) with hs
  have hspos : 0 < s := Nat.two_pow_pos _
  have hq : j / s < 2 ^ t := by
    rw [Nat.div_lt_iff_lt_mul hspos]
    have : 2 ^ t * s = 2 ^ (n - 1) := by
      rw [hs, ← pow_add]
      congr 1
      omega
    omega
  have hm : j % s < s := Nat.mod_lt _ hspos
  have hpow : 2 * s * 2 ^ t = 2 ^ n := by
    rw [hs]
    have : 2 * 2 ^ (n - 1 - t) * 2 ^ t = 2 ^ (1 + (n - 1 - t) + t) := by
      rw [pow_add, pow_add, pow_one]
    rw [this]
    congr 1
    omega
  have hstep : 2 * s * (j / s) + 2 * s ≤ 2 * s * 2 ^ t := by
    have : 2 * s * (j / s + 1) ≤ 2 * s * 2 ^ t :=
      Nat.mul_le_mul_left _ (by omega)
    calc 2 * s * (j / s) + 2 * s = 2 * s * (j / s + 1) := by ring
      _ ≤ 2 * s * 2 ^ t := this
  unfold lowFn
  omega

/-- The bit-insertion low-index formula computes `lowFn`: inserting a `0`
bit at position `t` of `i` places the bits above `t` one slot higher. -/
theorem insert_zero_bit_eq (t i : Nat) :
    ((i >>> t) <<< (t + 1)) ||| (i &&& ((1 <<< t) - 1)) =
      2 * 2 ^ t * (i / 2 ^ t) + i % 2 ^ t := by
  rw [Nat.shiftRight_eq_div_pow, Nat.shiftLeft_eq, Nat.shiftLeft_eq, one_mul,
    Nat.and_pow_two_sub_one_eq_mod]
  have hb : i % 2 ^ t < 2 ^ (t + 1) :=
    lt_of_lt_of_le (Nat.mod_lt _ (Nat.two_pow_pos t))
      (Nat.pow_le_pow_right (by norm_num) (Nat.le_succ t))
  calc i / 2 ^ t * 2 ^ (t + 1) ||| i % 2 ^ t
      = 2 ^ (t + 1) * (i / 2 ^ t) ||| i % 2 ^ t := by rw [Nat.mul_comm]
    _ = 2 ^ (t + 1) * (i / 2 ^ t) + i % 2 ^ t :=
        (Nat.mul_add_lt_is_or hb _).symm
    _ = 2 * 2 ^ t * (i / 2 ^ t) + i % 2 ^ t := by rw [pow_succ]; ring

/-- Setting bit `t` of a low index adds the stride `2^t`. -/
theorem or_shift_eq_add {t q m : Nat} (hm : m < 2 ^ t) :
    (2 * 2 ^ t * q + m) ||| (1 <<< t) = 2 * 2 ^ t * q + m + 2 ^ t := by
  rw [Nat.shiftLeft_eq, one_mul]
  have hm' : m < 2 ^ (t + 1) :=
    lt_of_lt_of_le hm (Nat.pow_le_pow_right (by norm_num) (Nat.le_succ t))
  have h1 : 2 ^ t + m = 2 ^ t ||| m := by
    have := Nat.mul_add_lt_is_or hm 1
    simpa [Nat.mul_comm] using this
  have h2 : 2 * 2 ^ t * q + m = 2 ^ (t + 1) * q ||| m := by
    rw [← Nat.mul_add_lt_is_or hm' q, pow_succ]; ring_nf
  have h3 : 2 ^ t + m < 2 ^ (t + 1) := by
    have : (2 : Nat) ^ (t + 1) = 2 ^ t + 2 ^ t := by rw [pow_succ]; ring
    omega
  calc (2 * 2 ^ t * q + m) ||| 2 ^ t
      = (2 ^ (t + 1) * q ||| m) ||| 2 ^ t := by rw [← h2]
    _ = 2 ^ (t + 1) * q ||| (m ||| 2 ^ t) := Nat.or_assoc _ _ _
    _ = 2 ^ (t + 1) * q ||| (2 ^ t ||| m) := by rw [Nat.or_comm m]
    _ = 2 ^ (t + 1) * q ||| (2 ^ t + m) := by rw [← h1]
    _ = 2 ^ (t + 1) * q + (2 ^ t + m) := (Nat.mul_add_lt_is_or h3 q).symm
    _ = 2 * 2 ^ t * q + m + 2 ^ t := by rw [pow_succ]; ring

/-- The bit-insertion generator in arithmetic form: the `j`-th pair is
`(lowFn s j, lowFn s j + s)` with stride `s = 2^(n_vars-1-target)`. -/
theorem index_pair_eq (n t : Nat) :
    index_pair n t =
      (List.range (2 ^ (n - 1))).map (fun j =>
        (lowFn (2 ^ (n - 1 - t)) j, lowFn (2 ^ (n - 1 - t)) j + 2 ^ (n - 1 - t))) := by
  unfold index_pair
  apply List.map_congr_left
  intro i _
  simp only
  rw [insert_zero_bit_eq, Prod.mk.injEq]
  exact ⟨rfl, or_shift_eq_add (Nat.mod_lt _ (Nat.two_pow_pos _))⟩

/-- Unrolling the shift-based generator's block structure into a single map
over reduced indices. -/
theorem range_flatMap_blocks (s : Nat) (hs : 0 < s) :
    ∀ c : Nat,
      (List.range c).flatMap (fun block =>
          (List.range s).map (fun offset => block * (2 * s) + offset)) =
        (List.range (c * s)).map (lowFn s)
  | 0 => by simp
  | c + 1 => by
    have hcs : (c + 1) * s = c * s + s := by ring
    rw [List.range_succ, List.flatMap_append, range_flatMap_blocks s hs c,
      hcs, List.range_add, List.map_append, List.map_map]
    congr 1
    simp only [List.flatMap_cons, List.flatMap_nil, List.append_nil]
    apply List.map_congr_left
    intro offset hoff
    rw [List.mem_range] at hoff
    simp only [Function.comp_apply]
    unfold lowFn
    have hdiv : (c * s + offset) / s = c := by
      rw [Nat.mul_comm, Nat.mul_add_div hs, Nat.div_eq_of_lt hoff, Nat.add_zero]
    have hmod : (c * s + offset) % s = offset := by
      rw [Nat.add_comm, Nat.add_mul_mod_self_right, Nat.mod_eq_of_lt hoff]
    rw [hdiv, hmod]
    ring

/-- The shift-based generator's low indices are exactly `lowFn` over the
reduced index range. -/
theorem PairingIndex.toList_eq {n t : Nat} (ht : t < n) :
    (PairingIndex.mk n t).toList =
      (List.range (2 ^ (n - 1))).map (lowFn (2 ^ (n - 1 - t))) := by
  unfold PairingIndex.toList PairingIndex.shift_value
  simp only
  have h1 : n - t - 1 = n - 1 - t := by omega
  have h2 : 2 ^ (n - 1) / 2 ^ (n - 1 - t) = 2 ^ t := by
    rw [Nat.pow_div (by omega) (by norm_num)]
    congr 1
    omega
  have h3 : 2 ^ t * 2 ^ (n - 1 - t) = 2 ^ (n - 1) := by
    rw [← pow_add]
    congr 1
    omega
  rw [h1, h2, range_flatMap_blocks _ (Nat.two_pow_pos _), h3]

/-- The two pairing generators agree pair for pair (hence as sets), in the
same reduced-index order. -/
theorem generate_pair_vector_eq_index_pair {n t : Nat} (ht : t < n) :
    generate_pair_vector n t = .ok (index_pair n t) := by
  unfold generate_pair_vector PairingIndex.new
  rw [if_neg (by omega)]
  show Except.ok _ = _
  rw [index_pair_eq, PairingIndex.toList_eq ht, List.map_map]
  congr 1
  apply List.map_congr_left
  intro j _
  simp only [Function.comp_apply, PairingIndex.shift_value]
  have h4 : n - t - 1 = n - 1 - t := by omega
  rw [h4]

/-- A pair's low and high member sit in even and odd `s`-blocks
respectively, so low members never collide with high members. -/
theorem lowFn_ne_lowFn_add {s : Nat} (hs : 0 < s) (a b : Nat) :
    lowFn s a ≠ lowFn s b + s := by
  intro h
  have ha := lowFn_div hs a
  have hb := lowFn_add_div hs b
  rw [h, hb] at ha
  omega

/-- Flattening all pairs of the bit-insertion generator enumerates every
position in `[0, 2^n_vars)` exactly once. -/
theorem index_pair_flat_perm {n t : Nat} (ht : t < n) :
    ((index_pair n t).flatMap (fun pr => [pr.1, pr.2])).Perm
      (List.range (2 ^ n)) := by
  set s := 2 ^ (n - 1 - t) with hsdef
  have hspos : 0 < s := Nat.two_pow_pos _
  have hpow : 2 * s * 2 ^ t = 2 ^ n := by
    rw [hsdef]
    have h : 2 * 2 ^ (n - 1 - t) * 2 ^ t = 2 ^ (1 + (n - 1 - t) + t) := by
      rw [pow_add, pow_add, pow_one]
    rw [h]
    congr 1
    omega
  have hpow1 : 2 ^ t * s = 2 ^ (n - 1) := by
    rw [hsdef, ← pow_add]
    congr 1
    omega
  have hflat : (index_pair n t).flatMap (fun pr => [pr.1, pr.2]) =
      (List.range (2 ^ (n - 1))).flatMap
        (fun j => [lowFn s j, lowFn s j + s]) := by
    rw [index_pair_eq, List.flatMap_map]
  rw [hflat]
  have hnodup : ((List.range (2 ^ (n - 1))).flatMap
      (fun j => [lowFn s j, lowFn s j + s])).Nodup := by
    rw [List.nodup_flatMap]
    refine ⟨fun j _ => ?_, ?_⟩
    · rw [List.nodup_cons]
      refine ⟨?_, List.nodup_singleton _⟩
      rw [List.mem_singleton]
      omega
    · apply (List.pairwise_lt_range _).imp
      intro a b hab
      intro x hxa hxb
      simp only [List.mem_cons, List.mem_singleton, List.not_mem_nil,
        or_false] at hxa hxb
      rcases hxa with h1 | h1 <;> rcases hxb with h2 | h2
      · exact absurd (h1 ▸ h2) (Nat.ne_of_lt (lowFn_strictMono s hab))
      · exact lowFn_ne_lowFn_add hspos a b (h1 ▸ h2)
      · exact lowFn_ne_lowFn_add hspos b a (h2 ▸ h1)
      · have := lowFn_strictMono s hab
        omega
  apply List.Subperm.antisymm
  · apply List.subperm_of_subset hnodup
    intro x hx
    rw [List.mem_flatMap] at hx
    obtain ⟨j, hj, hxj⟩ := hx
    rw [List.mem_range] at hj
    have hbound := lowFn_add_lt (n := n) (t := t) ht hj
    rw [← hsdef] at hbound
    simp only [List.mem_cons, List.mem_singleton, List.not_mem_nil,
      or_false] at hxj
    rw [List.mem_range]
    rcases hxj with h | h <;> omega
  · apply List.subperm_of_subset (List.nodup_range _)
    intro x hx
    rw [List.mem_range] at hx
    rw [List.mem_flatMap]
    refine ⟨x / (2 * s) * s + x % s, ?_, ?_⟩
    · rw [List.mem_range]
      have hq : x / (2 * s) < 2 ^ t := by
        rw [Nat.div_lt_iff_lt_mul (by omega)]
        have h : 2 ^ t * (2 * s) = 2 ^ n := by rw [← hpow]; ring
        omega
      have hm : x % s < s := Nat.mod_lt _ hspos
      calc x / (2 * s) * s + x % s < (x / (2 * s) + 1) * s := by
            have h : (x / (2 * s) + 1) * s = x / (2 * s) * s + s := by ring
            omega
        _ ≤ 2 ^ t * s := Nat.mul_le_mul_right s (by omega)
        _ = 2 ^ (n - 1) := hpow1
    · set j := x / (2 * s) * s + x % s with hjdef
      have hm : x % s < s := Nat.mod_lt _ hspos
      have hjdiv : j / s = x / (2 * s) := by
        rw [hjdef, Nat.mul_comm (x / (2 * s)) s, Nat.mul_add_div hspos,
          Nat.div_eq_of_lt hm, Nat.add_zero]
      have hjmod : j % s = x % s := by
        rw [hjdef, Nat.add_comm, Nat.add_mul_mod_self_right,
          Nat.mod_eq_of_lt hm]
      have hlow : lowFn s j = 2 * s * (x / (2 * s)) + x % s := by
        unfold lowFn
        rw [hjdiv, hjmod]
      have hxq : x / s / 2 = x / (2 * s) := by
        rw [Nat.div_div_eq_div_mul, Nat.mul_comm]
      have hx1 : s * (x / s) + x % s = x := Nat.div_add_mod x s
      have hx2 : 2 * (x / s / 2) + x / s % 2 = x / s := Nat.div_add_mod _ 2
      rw [hxq] at hx2
      simp only [List.mem_cons, List.mem_singleton]
      rcases Nat.mod_two_eq_zero_or_one (x / s) with hpar | hpar
      · left
        have hxs : x / s = 2 * (x / (2 * s)) := by omega
        rw [hlow]
        rw [hxs] at hx1
        calc x = s * (2 * (x / (2 * s))) + x % s := hx1.symm
          _ = 2 * s * (x / (2 * s)) + x % s := by ring
      · right
        left
        have hxs : x / s = 2 * (x / (2 * s)) + 1 := by omega
        rw [hlow]
        rw [hxs] at hx1
        calc x = s * (2 * (x / (2 * s)) + 1) + x % s := hx1.symm
          _ = 2 * s * (x / (2 * s)) + x % s + s := by ring

/-! ### Characterizing one pairing pass of `partial_evaluate` -/

theorem ok_bind {ε α β : Type} (a : α) (f : α → Except ε β) :
    (Except.ok a : Except ε α) >>= f = f a := rfl

theorem error_bind {ε α β : Type} (e : ε) (f : α → Except ε β) :
    (Except.error e : Except ε α) >>= f = .error e := rfl

theorem rtIndex_eq_ok {α : Type} (l : List α) (i : Nat) (d : α)
    (h : i < l.length) : rtIndex l i = .ok (l.getD i d) := by
  simp [rtIndex, List.getElem?_eq_getElem h]

theorem rtSet_eq_ok {α : Type} (l : List α) (i : Nat) (v : α)
    (h : i < l.length) : rtSet l i v = .ok (l.set i v) := by
  simp [rtSet, h]

/-- Updating one slot then taking up to and including it: the prefix is
unchanged and the slot holds the new value. -/
theorem set_take_succ {α : Type} (l : List α) (k : Nat) (v : α)
    (h : k < l.length) : (l.set k v).take (k + 1) = l.take k ++ [v] := by
  have hk : k < (l.set k v).length := by simpa using h
  have h1 : (l.set k v).take (k + 1) =
      (l.set k v).take k ++ [(l.set k v).get ⟨k, hk⟩] := by
    rw [List.take_succ, List.getElem?_eq_getElem hk]
    rfl
  rw [h1, List.set_take,
    List.set_eq_of_length_le (by rw [List.length_take]; exact Nat.min_le_left _ _)]
  congr 1
  rw [List.get_eq_getElem, List.getElem_set_self]

/-- One pairing pass over a buffer, starting to write at slot `k`, when
every pair reads at or beyond the slot it writes: the written region holds
the interpolated values of the original buffer and the rest is unchanged. -/
theorem pairingPass_eq {F : Type} [CommRing F] [DecidableEq F] (a : F) :
    ∀ (pairs : List (Nat × Nat)) (k : Nat) (buf : List F),
      (∀ j (hj : j < pairs.length),
          k + j ≤ (pairs.get ⟨j, hj⟩).1 ∧ k + j ≤ (pairs.get ⟨j, hj⟩).2 ∧
          (pairs.get ⟨j, hj⟩).1 < buf.length ∧
          (pairs.get ⟨j, hj⟩).2 < buf.length) →
      k + pairs.length ≤ buf.length →
      pairingPass a pairs k buf =
        .ok (buf.take k ++
          pairs.map (fun pr => interpStep a (buf.getD pr.1 0) (buf.getD pr.2 0)) ++
          buf.drop (k + pairs.length))
  | [], k, buf => by
    intro _ _
    simp [pairingPass, List.take_append_drop]
  | (left_pos, right_pos) :: rest, k, buf => by
    intro h hk
    have h0 := h 0 (by simp)
    simp only [List.get] at h0
    obtain ⟨hl_ge, hr_ge, hl_lt, hr_lt⟩ := h0
    have hklt : k < buf.length := by
      simp only [List.length_cons] at hk
      omega
    set v := interpStep a (buf.getD left_pos 0) (buf.getD right_pos 0) with hv
    show (do
      let left ← rtIndex buf left_pos
      let right ← rtIndex buf right_pos
      let buf' ← rtSet buf k (interpStep a left right)
      pairingPass a rest (k + 1) buf') = _
    rw [rtIndex_eq_ok _ _ 0 hl_lt, ok_bind, rtIndex_eq_ok _ _ 0 hr_lt, ok_bind,
      rtSet_eq_ok _ _ _ hklt, ok_bind]
    have hrec := pairingPass_eq a rest (k + 1) (buf.set k v)
      (by
        intro j hj
        have hj' : j + 1 < ((left_pos, right_pos) :: rest).length := by
          simp only [List.length_cons]
          omega
        have := h (j + 1) hj'
        simp only [List.get, List.length_set] at this ⊢
        omega)
      (by
        simp only [List.length_set]
        simp only [List.length_cons] at hk
        omega)
    rw [hrec]
    congr 1
    have hmap : rest.map (fun pr =>
        interpStep a ((buf.set k v).getD pr.1 0) ((buf.set k v).getD pr.2 0)) =
        rest.map (fun pr =>
          interpStep a (buf.getD pr.1 0) (buf.getD pr.2 0)) := by
      apply List.map_congr_left
      intro pr hpr
      rw [List.mem_iff_getElem] at hpr
      obtain ⟨j, hj, rfl⟩ := hpr
      have hj' : j + 1 < ((left_pos, right_pos) :: rest).length := by
        simp only [List.length_cons]
        omega
      have hb := h (j + 1) hj'
      simp only [List.get_eq_getElem, List.getElem_cons_succ] at hb
      have hne1 : k ≠ rest[j].1 := by omega
      have hne2 : k ≠ rest[j].2 := by omega
      simp [List.getD_eq_getElem?_getD, List.getElem?_set_ne hne1,
        List.getElem?_set_ne hne2]
    rw [hmap, set_take_succ _ _ _ hklt, List.drop_set]
    rw [if_pos (show k < k + 1 + rest.length by omega)]
    have hlen : k + 1 + rest.length = k + (rest.length + 1) := by omega
    rw [hlen]
    simp only [List.map_cons, List.length_cons, List.append_assoc,
      List.cons_append, List.singleton_append, List.nil_append]

/-! ### From buffer passes to a functional specification of partial
evaluation -/

theorem index_pair_length (m v : Nat) :
    (index_pair m v).length = 2 ^ (m - 1) := by
  simp [index_pair]

theorem index_pair_get {m v : Nat} (j : Nat)
    (hj : j < (index_pair m v).length) :
    (index_pair m v).get ⟨j, hj⟩ =
      (lowFn (2 ^ (m - 1 - v)) j, lowFn (2 ^ (m - 1 - v)) j + 2 ^ (m - 1 - v)) := by
  have hj' : j < 2 ^ (m - 1) := by
    rw [← index_pair_length m v]
    exact hj
  rw [List.get_eq_getElem, List.getElem_of_eq (index_pair_eq m v) hj,
    List.getElem_map, List.getElem_range]

/-- One functional evaluation step: what a single pairing pass at target
variable `v` computes on the logical (truncated) evaluation vector. -/
def selStep {F : Type} [CommRing F] [DecidableEq F] (v : Nat) (a : F)
    (L : List F) : List F :=
  (List.range (L.length / 2)).map (fun j =>
    interpStep a (L.getD (lowFn (L.length / 2 ^ (v + 1)) j) 0)
      (L.getD (lowFn (L.length / 2 ^ (v + 1)) j + L.length / 2 ^ (v + 1)) 0))

theorem selStep_length {F : Type} [CommRing F] [DecidableEq F] (v : Nat)
    (a : F) (L : List F) : (selStep v a L).length = L.length / 2 := by
  simp [selStep]

/-- Folding `selStep` over the assignments: the functional specification of
consecutive partial evaluation. -/
def foldSel {F : Type} [CommRing F] [DecidableEq F] (v : Nat) (xs : List F)
    (L : List F) : List F :=
  xs.foldl (fun acc x => selStep v x acc) L

theorem foldSel_nil {F : Type} [CommRing F] [DecidableEq F] (v : Nat)
    (L : List F) : foldSel v [] L = L := rfl

theorem foldSel_cons {F : Type} [CommRing F] [DecidableEq F] (v : Nat)
    (a : F) (xs : List F) (L : List F) :
    foldSel v (a :: xs) L = foldSel v xs (selStep v a L) := rfl

theorem foldSel_length {F : Type} [CommRing F] [DecidableEq F] (v : Nat) :
    ∀ (xs : List F) (L : List F) (m : Nat), L.length = 2 ^ m →
      xs.length ≤ m → (foldSel v xs L).length = 2 ^ (m - xs.length)
  | [], L, m => by
    intro hL _
    simpa [foldSel_nil] using hL
  | a :: xs, L, m => by
    intro hL hlen
    rw [foldSel_cons]
    have hm : 1 ≤ m := by
      simp only [List.length_cons] at hlen
      omega
    have hstep : (selStep v a L).length = 2 ^ (m - 1) := by
      rw [selStep_length, hL]
      rw [show (2 : Nat) ^ m = 2 ^ (m - 1) * 2 by
        rw [← pow_succ]
        congr 1
        omega]
      exact Nat.mul_div_cancel _ (by norm_num)
    have := foldSel_length v xs (selStep v a L) (m - 1) hstep
      (by simp only [List.length_cons] at hlen; omega)
    rw [this]
    congr 1
    simp only [List.length_cons]
    omega

/-- The values a single pass writes, read off against the logical
(`2^m`-prefix) view of the buffer: they are exactly `selStep`. -/
theorem pass_prefix_eq {F : Type} [CommRing F] [DecidableEq F] (a : F)
    {m : Nat} (v : Nat) (buf : List F) (hv : v < m)
    (hbuf : 2 ^ m ≤ buf.length) :
    (index_pair m v).map (fun pr =>
        interpStep a (buf.getD pr.1 0) (buf.getD pr.2 0)) =
      selStep v a (buf.take (2 ^ m)) := by
  have hm1 : 1 ≤ m := by omega
  have hLlen : (buf.take (2 ^ m)).length = 2 ^ m := by
    rw [List.length_take]
    omega
  unfold selStep
  rw [hLlen]
  have hhalf : 2 ^ m / 2 = 2 ^ (m - 1) := by
    have h := Nat.pow_div hm1 (show 0 < 2 by norm_num)
    simpa using h
  have hstr : 2 ^ m / 2 ^ (v + 1) = 2 ^ (m - 1 - v) := by
    rw [Nat.pow_div (by omega) (by norm_num)]
    congr 1
    omega
  rw [hhalf, hstr, index_pair_eq, List.map_map]
  apply List.map_congr_left
  intro j hjmem
  rw [List.mem_range] at hjmem
  simp only [Function.comp_apply]
  have hlow := lowFn_add_lt (n := m) (t := v) hv hjmem
  have hg : 0 < 2 ^ (m - 1 - v) := Nat.two_pow_pos _
  have hlow1 : lowFn (2 ^ (m - 1 - v)) j < 2 ^ m := by omega
  have h1 : (buf.take (2 ^ m)).getD (lowFn (2 ^ (m - 1 - v)) j) 0 =
      buf.getD (lowFn (2 ^ (m - 1 - v)) j) 0 := by
    simp [List.getD_eq_getElem?_getD, List.getElem?_take_of_lt hlow1]
  have h2 : (buf.take (2 ^ m)).getD
        (lowFn (2 ^ (m - 1 - v)) j + 2 ^ (m - 1 - v)) 0 =
      buf.getD (lowFn (2 ^ (m - 1 - v)) j + 2 ^ (m - 1 - v)) 0 := by
    simp [List.getD_eq_getElem?_getD, List.getElem?_take_of_lt hlow]
  rw [h1, h2]

/-- The outer loop against the functional specification: after processing
the remaining assignments from iteration `i`, the surviving prefix of the
full-size buffer is `foldSel` of the current logical prefix. -/
theorem peLoop_eq {F : Type} [CommRing F] [DecidableEq F] (v : Nat) :
    ∀ (as : List F) (i N : Nat) (buf : List F), buf.length = 2 ^ N →
      i + as.length + v ≤ N →
      ∃ buf', peLoop v as i N buf = .ok buf' ∧ buf'.length = 2 ^ N ∧
        buf'.take (2 ^ (N - i - as.length)) =
          foldSel v as (buf.take (2 ^ (N - i)))
  | [], i, N, buf => by
    intro hlen _
    exact ⟨buf, rfl, hlen, by simp [foldSel_nil]⟩
  | a :: rest, i, N, buf => by
    intro hlen hcond
    simp only [List.length_cons] at hcond
    have hiN : i ≤ N := by omega
    have hvm : v < N - i := by omega
    have hm1 : 1 ≤ N - i := by omega
    have hmN : 2 ^ (N - i) ≤ 2 ^ N :=
      Nat.pow_le_pow_right (by norm_num) (by omega)
    have hm1N : 2 ^ (N - i - 1) ≤ 2 ^ N :=
      Nat.pow_le_pow_right (by norm_num) (by omega)
    have hunfold : peLoop v (a :: rest) i N buf = (do
        let m ← usizeSub N i
        let buf' ← pairingPass a (index_pair m v) 0 buf
        peLoop v rest (i + 1) N buf') := rfl
    have hsub : usizeSub N i = .ok (N - i) := by
      unfold usizeSub
      rw [if_pos hiN]
    have hpass := pairingPass_eq a (index_pair (N - i) v) 0 buf
      (by
        intro j hj
        have hjlt : j < 2 ^ (N - i - 1) := by
          rw [index_pair_length] at hj
          exact hj
        rw [index_pair_get j hj]
        have hbound := lowFn_add_lt (n := N - i) (t := v) hvm hjlt
        have hge := le_lowFn (2 ^ (N - i - 1 - v)) j
        simp only
        rw [hlen]
        generalize (2 : Nat) ^ (N - i - 1 - v) = g at hbound hge ⊢
        generalize lowFn g j = w at hbound hge ⊢
        omega)
      (by rw [index_pair_length]; omega)
    set mid := (index_pair (N - i) v).map (fun pr =>
      interpStep a (buf.getD pr.1 0) (buf.getD pr.2 0)) with hmid
    have hmidlen : mid.length = 2 ^ (N - i - 1) := by
      rw [hmid, List.length_map, index_pair_length]
    have hbuf1len : (mid ++ buf.drop (2 ^ (N - i - 1))).length = 2 ^ N := by
      rw [List.length_append, List.length_drop, hmidlen, hlen]
      omega
    obtain ⟨buf'', hrun, hlen'', htake⟩ :=
      peLoop_eq v rest (i + 1) N (mid ++ buf.drop (2 ^ (N - i - 1)))
        hbuf1len (by omega)
    refine ⟨buf'', ?_, hlen'', ?_⟩
    · rw [hunfold, hsub, ok_bind, hpass, List.take_zero, List.nil_append,
        Nat.zero_add, index_pair_length, ok_bind]
      exact hrun
    · rw [foldSel_cons]
      have hexp : N - i - (a :: rest).length = N - (i + 1) - rest.length := by
        simp only [List.length_cons]
        omega
      rw [hexp, htake]
      congr 1
      have hNi1 : N - (i + 1) = N - i - 1 := by omega
      rw [hNi1, List.take_left' hmidlen, hmid]
      exact pass_prefix_eq a v buf hvm (by omega)

theorem one_shiftLeft_eq (n : Nat) : (1 <<< n) = 2 ^ n := by
  rw [Nat.shiftLeft_eq, one_mul]

theorem new_eq_ok {F : Type} [CommRing F] [DecidableEq F] {n : Nat}
    {l : List F} (h : l.length = 2 ^ n) :
    MultiLinearPolynomial.new n l = .ok ⟨n, l⟩ := by
  unfold MultiLinearPolynomial.new
  rw [if_neg (by rw [one_shiftLeft_eq]; simp [h])]

theorem new_eq_error {F : Type} [CommRing F] [DecidableEq F] {n : Nat}
    {l : List F} (h : l.length ≠ 2 ^ n) :
    MultiLinearPolynomial.new n l =
      .error "evaluation vec len should equal 2^n_vars" := by
  unfold MultiLinearPolynomial.new
  rw [if_pos (by rw [one_shiftLeft_eq]; simpa using h)]

theorem usizeShlChecked_one {n : Nat} (h : n < 64) :
    usizeShlChecked 1 n = .ok (2 ^ n) := by
  unfold usizeShlChecked
  rw [if_pos h, one_shiftLeft_eq,
    Nat.mod_eq_of_lt (Nat.pow_lt_pow_right (by norm_num) h)]

theorem usizeShlWrapping_one (n : Nat) :
    usizeShlWrapping 1 n = 2 ^ (n % 64) := by
  unfold usizeShlWrapping
  rw [one_shiftLeft_eq]
  exact Nat.mod_eq_of_lt
    (Nat.pow_lt_pow_right (by norm_num) (Nat.mod_lt _ (by norm_num)))

/-- Below the overflow threshold, the debug-assertions constructor is the
exact one with its error lifted. -/
theorem new_checked_eq_of_lt {F : Type} [CommRing F] [DecidableEq F]
    {n : Nat} {e : List F} (h : n < 64) :
    MultiLinearPolynomial.new_checked n e =
      match MultiLinearPolynomial.new n e with
      | .ok p => .ok p
      | .error m => .error (.err m) := by
  unfold MultiLinearPolynomial.new_checked MultiLinearPolynomial.new
  rw [usizeShlChecked_one h, ok_bind, one_shiftLeft_eq]
  by_cases hl : e.length = 2 ^ n
  · rw [if_neg (not_not_intro hl), if_neg (not_not_intro hl)]
  · rw [if_pos hl, if_pos hl]

theorem new_checked_eq_ok {F : Type} [CommRing F] [DecidableEq F]
    {n : Nat} {e : List F} (h : n < 64) (hl : e.length = 2 ^ n) :
    MultiLinearPolynomial.new_checked n e = .ok ⟨n, e⟩ := by
  rw [new_checked_eq_of_lt h, new_eq_ok hl]

theorem new_checked_eq_error {F : Type} [CommRing F] [DecidableEq F]
    {n : Nat} {e : List F} (h : n < 64) (hl : e.length ≠ 2 ^ n) :
    MultiLinearPolynomial.new_checked n e =
      .error (.err "evaluation vec len should equal 2^n_vars") := by
  rw [new_checked_eq_of_lt h, new_eq_error hl]

/-- At the overflow threshold the debug-assertions constructor panics at
the shift, before any length comparison. -/
theorem new_checked_overflow {F : Type} [CommRing F] [DecidableEq F]
    {n : Nat} (e : List F) (h : 64 ≤ n) :
    MultiLinearPolynomial.new_checked n e = .error RtErr.panicked := by
  unfold MultiLinearPolynomial.new_checked
  rw [show usizeShlChecked 1 n = .error RtErr.panicked from by
    unfold usizeShlChecked
    rw [if_neg (by omega)]]
  rfl

/-- Below the overflow threshold, the release constructor coincides with
the exact one. -/
theorem new_release_eq_new {F : Type} [CommRing F] [DecidableEq F]
    {n : Nat} {e : List F} (h : n < 64) :
    MultiLinearPolynomial.new_release n e = MultiLinearPolynomial.new n e := by
  unfold MultiLinearPolynomial.new_release MultiLinearPolynomial.new
  rw [usizeShlWrapping_one, Nat.mod_eq_of_lt h, one_shiftLeft_eq]

/-- The top-level success theorem for `partial_evaluate`: on a well-formed
polynomial, fixing `xs.length` consecutive variables starting at a variable
`v` that keeps every pass's target in range returns exactly the `foldSel`
functional specification. -/
theorem partial_evaluate_ok {F : Type} [CommRing F] [DecidableEq F]
    (p : MultiLinearPolynomial F) (hwf : p.wf) (v : Nat) (xs : List F)
    (h : v + xs.length ≤ p.n_vars) :
    p.partial_evaluate v xs =
      .ok ⟨p.n_vars - xs.length, foldSel v xs p.evaluations⟩ := by
  obtain ⟨N, evals⟩ := p
  unfold MultiLinearPolynomial.wf at hwf
  simp only at h hwf ⊢
  obtain ⟨buf', hrun, hlen', htake⟩ := peLoop_eq v xs 0 N evals hwf (by omega)
  have hunfold : MultiLinearPolynomial.partial_evaluate ⟨N, evals⟩ v xs = (do
      let buf ← peLoop v xs 0 N evals
      let new_n_vars ← usizeSub N xs.length
      let truncated ← rtSlice buf (1 <<< new_n_vars)
      match MultiLinearPolynomial.new new_n_vars truncated with
      | .ok q => .ok q
      | .error e => .error (.err e)) := rfl
  rw [hunfold, hrun, ok_bind]
  have hsub : usizeSub N xs.length = .ok (N - xs.length) := by
    unfold usizeSub
    rw [if_pos (by omega)]
  rw [hsub, ok_bind]
  have hslice : rtSlice buf' (1 <<< (N - xs.length)) =
      .ok (buf'.take (2 ^ (N - xs.length))) := by
    unfold rtSlice
    rw [one_shiftLeft_eq,
      if_pos (by rw [hlen']; exact Nat.pow_le_pow_right (by norm_num) (by omega))]
  rw [hslice, ok_bind]
  have htake' : buf'.take (2 ^ (N - xs.length)) = foldSel v xs evals := by
    have h0 : N - 0 - xs.length = N - xs.length := by omega
    have h1 : N - 0 = N := by omega
    rw [h0, h1] at htake
    rw [htake]
    congr 1
    rw [← hwf]
    exact List.take_length evals
  rw [htake']
  have hfl : (foldSel v xs evals).length = 2 ^ (N - xs.length) :=
    foldSel_length v xs evals N hwf (by omega)
  rw [new_eq_ok hfl]

/-! ### Error propagation: every runtime failure inside `partial_evaluate`
is a panic, never a `Result::Err` -/

theorem rtIndex_error {α : Type} {l : List α} {i : Nat} {e : RtErr}
    (h : rtIndex l i = .error e) : e = .panicked := by
  unfold rtIndex at h
  cases hx : l[i]? with
  | some v => rw [hx] at h; simp at h
  | none =>
    rw [hx] at h
    injection h with h'
    exact h'.symm

theorem rtSet_error {α : Type} {l : List α} {i : Nat} {v : α} {e : RtErr}
    (h : rtSet l i v = .error e) : e = .panicked := by
  unfold rtSet at h
  split at h
  · simp at h
  · injection h with h'
    exact h'.symm

theorem rtSlice_error {α : Type} {l : List α} {n : Nat} {e : RtErr}
    (h : rtSlice l n = .error e) : e = .panicked := by
  unfold rtSlice at h
  split at h
  · simp at h
  · injection h with h'
    exact h'.symm

theorem usizeSub_error {a b : Nat} {e : RtErr}
    (h : usizeSub a b = .error e) : e = .panicked := by
  unfold usizeSub at h
  split at h
  · simp at h
  · injection h with h'
    exact h'.symm

theorem pairingPass_error {F : Type} [CommRing F] [DecidableEq F] (a : F) :
    ∀ (pairs : List (Nat × Nat)) (k : Nat) (buf : List F) (e : RtErr),
      pairingPass a pairs k buf = .error e → e = .panicked
  | [], k, buf, e => by
    intro h
    simp [pairingPass] at h
  | (l, r) :: rest, k, buf, e => by
    intro h
    rw [show pairingPass a ((l, r) :: rest) k buf =
        (rtIndex buf l >>= fun left =>
          rtIndex buf r >>= fun right =>
          rtSet buf k (interpStep a left right) >>= fun buf' =>
          pairingPass a rest (k + 1) buf') from rfl] at h
    cases h1 : rtIndex buf l with
    | error e1 =>
      rw [h1, error_bind] at h
      injection h with h'
      rw [← h']
      exact rtIndex_error h1
    | ok left =>
      rw [h1, ok_bind] at h
      cases h2 : rtIndex buf r with
      | error e2 =>
        rw [h2, error_bind] at h
        injection h with h'
        rw [← h']
        exact rtIndex_error h2
      | ok right =>
        rw [h2, ok_bind] at h
        cases h3 : rtSet buf k (interpStep a left right) with
        | error e3 =>
          rw [h3, error_bind] at h
          injection h with h'
          rw [← h']
          exact rtSet_error h3
        | ok buf' =>
          rw [h3, ok_bind] at h
          exact pairingPass_error a rest (k + 1) buf' e h

theorem peLoop_error {F : Type} [CommRing F] [DecidableEq F] (v : Nat) :
    ∀ (as : List F) (i N : Nat) (buf : List F) (e : RtErr),
      peLoop v as i N buf = .error e → e = .panicked
  | [], i, N, buf, e => by
    intro h
    simp [peLoop] at h
  | a :: rest, i, N, buf, e => by
    intro h
    rw [show peLoop v (a :: rest) i N buf =
        (usizeSub N i >>= fun m =>
          pairingPass a (index_pair m v) 0 buf >>= fun buf' =>
          peLoop v rest (i + 1) N buf') from rfl] at h
    cases h1 : usizeSub N i with
    | error e1 =>
      rw [h1, error_bind] at h
      injection h with h'
      rw [← h']
      exact usizeSub_error h1
    | ok m =>
      rw [h1, ok_bind] at h
      cases h2 : pairingPass a (index_pair m v) 0 buf with
      | error e2 =>
        rw [h2, error_bind] at h
        injection h with h'
        rw [← h']
        exact pairingPass_error a _ _ _ _ h2
      | ok buf' =>
        rw [h2, ok_bind] at h
        exact peLoop_error v rest (i + 1) N buf' e h

/-- Supplying more assignments than variables always ends in a panic (a
`usize` underflow at `self.n_vars - assignments.len()`, or an earlier
out-of-bounds access), never in an explicit error result. -/
theorem partial_evaluate_too_many {F : Type} [CommRing F] [DecidableEq F]
    (p : MultiLinearPolynomial F) (v : Nat) (xs : List F)
    (h : p.n_vars < xs.length) :
    p.partial_evaluate v xs = .error .panicked := by
  rw [show p.partial_evaluate v xs =
      (peLoop v xs 0 p.n_vars p.evaluations >>= fun buf =>
        usizeSub p.n_vars xs.length >>= fun new_n_vars =>
        rtSlice buf (1 <<< new_n_vars) >>= fun truncated =>
        match MultiLinearPolynomial.new new_n_vars truncated with
        | .ok q => .ok q
        | .error e => .error (.err e)) from rfl]
  cases h1 : peLoop v xs 0 p.n_vars p.evaluations with
  | error e =>
    rw [error_bind, peLoop_error v xs 0 p.n_vars p.evaluations e h1]
  | ok buf =>
    rw [ok_bind]
    have h2 : usizeSub p.n_vars xs.length = .error .panicked := by
      unfold usizeSub
      rw [if_neg (by omega)]
    rw [h2, error_bind]

theorem evaluate_arity_error {F : Type} [CommRing F] [DecidableEq F]
    (p : MultiLinearPolynomial F) (xs : List F) (h : xs.length ≠ p.n_vars) :
    p.evaluate xs = .error (.err "evaluate must assign to all variables") := by
  unfold MultiLinearPolynomial.evaluate
  rw [if_pos h]

theorem evaluate_ok {F : Type} [CommRing F] [DecidableEq F]
    (p : MultiLinearPolynomial F) (hwf : p.wf) (xs : List F)
    (hlen : xs.length = p.n_vars) :
    p.evaluate xs = .ok ((foldSel 0 xs p.evaluations).getD 0 0) := by
  unfold MultiLinearPolynomial.evaluate
  rw [if_neg (by omega)]
  rw [show (do
      let q ← p.partial_evaluate 0 xs
      rtIndex q.evaluations 0) =
    (p.partial_evaluate 0 xs >>= fun q => rtIndex q.evaluations 0) from rfl]
  rw [partial_evaluate_ok p hwf 0 xs (by omega), ok_bind]
  have hlen1 : (foldSel 0 xs p.evaluations).length = 1 := by
    have h := foldSel_length 0 xs p.evaluations p.n_vars hwf (le_of_eq hlen)
    rw [hlen, Nat.sub_self, pow_zero] at h
    exact h
  exact rtIndex_eq_ok _ _ 0 (by rw [hlen1]; norm_num)

/-- The three-way match of `partial_evaluate` computes the interpolation
formula in every case: the zero and one branches are special cases of
`left - r * (left - right)`. -/
theorem interpStep_formula {F : Type} [CommRing F] [DecidableEq F]
    (a left right : F) : interpStep a left right = left - a * (left - right) := by
  unfold interpStep
  split_ifs with h0 h1
  · rw [h0]; ring
  · rw [h1]; ring
  · rfl

/-- Fixing a single in-range variable: the result vector is the pairing map
of the interpolation step over the original evaluations. -/
theorem partial_evaluate_single {F : Type} [CommRing F] [DecidableEq F]
    (p : MultiLinearPolynomial F) (hwf : p.wf) (v : Nat)
    (hv : v < p.n_vars) (r : F) :
    p.partial_evaluate v [r] = .ok ⟨p.n_vars - 1,
      (index_pair p.n_vars v).map (fun pr =>
        interpStep r (p.evaluations.getD pr.1 0) (p.evaluations.getD pr.2 0))⟩ := by
  have hmain : foldSel v [r] p.evaluations =
      (index_pair p.n_vars v).map (fun pr =>
        interpStep r (p.evaluations.getD pr.1 0) (p.evaluations.getD pr.2 0)) := by
    have h2 : p.evaluations.take (2 ^ p.n_vars) = p.evaluations := by
      rw [← hwf]
      exact List.take_length _
    rw [show foldSel v [r] p.evaluations = selStep v r p.evaluations from rfl,
      ← h2, ← pass_prefix_eq r v p.evaluations hv (le_of_eq hwf.symm), h2]
  rw [partial_evaluate_ok p hwf v [r]
    (by simp only [List.length_cons, List.length_nil]; omega), hmain]
  simp

/-- Fixing all variables one at a time (always the current first variable)
through repeated single-variable `partial_evaluate` calls computes the same
`foldSel` chain as one multi-variable call. -/
theorem foldlM_single_eq {F : Type} [CommRing F] [DecidableEq F] :
    ∀ (xs : List F) (p : MultiLinearPolynomial F), p.wf →
      xs.length ≤ p.n_vars →
      xs.foldlM (fun q x => q.partial_evaluate 0 [x]) p =
        .ok ⟨p.n_vars - xs.length, foldSel 0 xs p.evaluations⟩
  | [], p => by
    intro hwf _
    obtain ⟨N, evals⟩ := p
    simp only [List.foldlM_nil, List.length_nil, Nat.sub_zero, foldSel_nil]
    rfl
  | x :: rest, p => by
    intro hwf hlen
    simp only [List.length_cons] at hlen
    rw [List.foldlM_cons]
    rw [partial_evaluate_ok p hwf 0 [x]
      (by simp only [List.length_cons, List.length_nil]; omega)]
    rw [ok_bind]
    have hq1wf : (⟨p.n_vars - [x].length, foldSel 0 [x] p.evaluations⟩ :
        MultiLinearPolynomial F).wf := by
      unfold MultiLinearPolynomial.wf
      simp only
      exact foldSel_length 0 [x] p.evaluations p.n_vars hwf
        (by simp only [List.length_cons, List.length_nil]; omega)
    rw [foldlM_single_eq rest _ hq1wf
      (by simp only [List.length_cons, List.length_nil]; omega)]
    have hn : p.n_vars - [x].length - rest.length =
        p.n_vars - (x :: rest).length := by
      simp only [List.length_cons, List.length_nil]
      omega
    rw [hn]
    rfl

/-! ### The claims -/

instance exceptDecEq {ε α : Type} [DecidableEq ε] [DecidableEq α] :
    DecidableEq (Except ε α) := fun x y =>
  match x, y with
  | .ok a, .ok b =>
    if h : a = b then isTrue (by rw [h])
    else isFalse (by intro hc; injection hc; exact h ‹_›)
  | .error e, .error f =>
    if h : e = f then isTrue (by rw [h])
    else isFalse (by intro hc; injection hc; exact h ‹_›)
  | .ok _, .error _ => isFalse (by intro hc; exact Except.noConfusion hc)
  | .error _, .ok _ => isFalse (by intro hc; exact Except.noConfusion hc)

/-- Whether a fallible call returned a success value. -/
def exceptIsOk {ε α : Type} : Except ε α → Bool
  | .ok _ => true
  | .error _ => false

/-- C1: for every polynomial and every single assignment value `r` to an
in-range variable, `partial_evaluate` computes each entry of the new
evaluation vector from its pair `(low, high)` as exactly
`evaluations[low]` when `r` is zero, exactly `evaluations[high]` when `r`
is one, and `evaluations[low] - r * (evaluations[low] -
evaluations[high])` otherwise; on the polynomial `[3,1,2,5]` with
`n_vars = 2`, `partial_evaluate(0, [0]) = [3,1]`,
`partial_evaluate(0, [1]) = [2,5]`, and
`partial_evaluate(0, [5]) = [-2, 21]` in the ambient field. -/
theorem claim_c1 {F : Type} [CommRing F] [DecidableEq F] :
    (∀ (p : MultiLinearPolynomial F) (v : Nat) (r : F), p.wf → v < p.n_vars →
      p.partial_evaluate v [r] = .ok ⟨p.n_vars - 1,
        (index_pair p.n_vars v).map (fun pr =>
          if r = 0 then p.evaluations.getD pr.1 0
          else if r = 1 then p.evaluations.getD pr.2 0
          else p.evaluations.getD pr.1 0 -
            r * (p.evaluations.getD pr.1 0 - p.evaluations.getD pr.2 0))⟩) ∧
    (⟨2, [3, 1, 2, 5]⟩ : MultiLinearPolynomial F).partial_evaluate 0 [0] =
      .ok ⟨1, [3, 1]⟩ ∧
    (⟨2, [3, 1, 2, 5]⟩ : MultiLinearPolynomial F).partial_evaluate 0 [1] =
      .ok ⟨1, [2, 5]⟩ ∧
    (⟨2, [3, 1, 2, 5]⟩ : MultiLinearPolynomial F).partial_evaluate 0 [5] =
      .ok ⟨1, [-2, 21]⟩ := by
  have hwf2 : (⟨2, [3, 1, 2, 5]⟩ : MultiLinearPolynomial F).wf := by
    unfold MultiLinearPolynomial.wf
    norm_num
  have hip : index_pair 2 0 = [(0, 2), (1, 3)] := by decide
  have g0 : ([3, 1, 2, 5] : List F).getD 0 0 = 3 := rfl
  have g1 : ([3, 1, 2, 5] : List F).getD 1 0 = 1 := rfl
  have g2 : ([3, 1, 2, 5] : List F).getD 2 0 = 2 := rfl
  have g3 : ([3, 1, 2, 5] : List F).getD 3 0 = 5 := rfl
  refine ⟨fun p v r hwf hv => partial_evaluate_single p hwf v hv r, ?_, ?_, ?_⟩
  · rw [partial_evaluate_single _ hwf2 0 (by norm_num) 0, hip]
    simp only [List.map_cons, List.map_nil, g0, g1, g2, g3, interpStep_formula]
    norm_num
  · rw [partial_evaluate_single _ hwf2 0 (by norm_num) 1, hip]
    simp only [List.map_cons, List.map_nil, g0, g1, g2, g3, interpStep_formula]
    norm_num
  · rw [partial_evaluate_single _ hwf2 0 (by norm_num) 5, hip]
    simp only [List.map_cons, List.map_nil, g0, g1, g2, g3, interpStep_formula]
    norm_num

/-- C1 witness: the single-variable characterization applied over the
BLS-like prime field `ZMod 101` at variable 1 with assignment 7. -/
theorem claim_c1_witness :
    (⟨2, [3, 1, 2, 5]⟩ : MultiLinearPolynomial (ZMod 101)).partial_evaluate
      1 [7] = .ok ⟨1, [90, 23]⟩ := by
  have h := (claim_c1 (F := ZMod 101)).1 ⟨2, [3, 1, 2, 5]⟩ 1 7
    (by decide) (by decide)
  rw [h]
  decide

/-- C2: fixing several consecutive variables succeeds whenever every pass's
target stays in range, returning a vector of the reduced length (the
generator is driven with `n_vars - i` on the i-th assignment over the
untruncated buffer); in particular on `f(a,b,c) = 2ab + 3bc` with table
`[0,0,0,3,0,0,2,5]`, `partial_evaluate(1, [2,3])` returns exactly the
length-2 vector `[18, 22]`. -/
theorem claim_c2 {F : Type} [CommRing F] [DecidableEq F] :
    (∀ (p : MultiLinearPolynomial F) (v : Nat) (xs : List F), p.wf →
      v + xs.length ≤ p.n_vars →
      ∃ q, p.partial_evaluate v xs = .ok q ∧
        q.n_vars = p.n_vars - xs.length ∧
        q.evaluations.length = 2 ^ (p.n_vars - xs.length)) ∧
    (⟨3, [0, 0, 0, 3, 0, 0, 2, 5]⟩ : MultiLinearPolynomial F).partial_evaluate
      1 [2, 3] = .ok ⟨1, [18, 22]⟩ := by
  constructor
  · intro p v xs hwf h
    refine ⟨⟨p.n_vars - xs.length, foldSel v xs p.evaluations⟩,
      partial_evaluate_ok p hwf v xs h, rfl, ?_⟩
    exact foldSel_length v xs p.evaluations p.n_vars hwf (by omega)
  · have hwf3 : (⟨3, [0, 0, 0, 3, 0, 0, 2, 5]⟩ : MultiLinearPolynomial F).wf := by
      unfold MultiLinearPolynomial.wf
      norm_num
    rw [partial_evaluate_ok _ hwf3 1 [2, 3]
      (by simp only [List.length_cons, List.length_nil]; norm_num)]
    have hs1 : selStep 1 (2 : F) [0, 0, 0, 3, 0, 0, 2, 5] =
        [interpStep 2 0 0, interpStep 2 0 3,
         interpStep 2 0 2, interpStep 2 0 5] := by
      simp only [selStep, List.length_cons, List.length_nil, lowFn]
      norm_num
      rw [show List.range 4 = [0, 1, 2, 3] from rfl]
      simp only [List.map_cons, List.map_nil]
      norm_num [List.getD]
    have hs2 : selStep 1 (3 : F)
        [interpStep 2 0 0, interpStep 2 0 3,
         interpStep 2 0 2, interpStep 2 0 5] =
        [interpStep 3 (interpStep 2 0 0) (interpStep 2 0 3),
         interpStep 3 (interpStep 2 0 2) (interpStep 2 0 5)] := by
      simp only [selStep, List.length_cons, List.length_nil, lowFn]
      norm_num
      rw [show List.range 2 = [0, 1] from rfl]
      simp only [List.map_cons, List.map_nil]
      norm_num [List.getD]
    have h1 : foldSel 1 ([2, 3] : List F) [0, 0, 0, 3, 0, 0, 2, 5] =
        selStep 1 3 (selStep 1 2 [0, 0, 0, 3, 0, 0, 2, 5]) := rfl
    have h2 : (⟨3, [0, 0, 0, 3, 0, 0, 2, 5]⟩ :
        MultiLinearPolynomial F).n_vars - ([2, 3] : List F).length = 1 := rfl
    rw [show ((⟨3, [0, 0, 0, 3, 0, 0, 2, 5]⟩ :
        MultiLinearPolynomial F).evaluations) = [0, 0, 0, 3, 0, 0, 2, 5] from rfl,
      h1, hs1, hs2, h2]
    simp only [interpStep_formula]
    norm_num

/-- C2 witness: the multi-variable success and the worked example over
`ZMod 101`. -/
theorem claim_c2_witness :
    exceptIsOk ((⟨2, [1, 2, 3, 4]⟩ :
      MultiLinearPolynomial (ZMod 101)).partial_evaluate 0 [5, 6]) = true ∧
    (⟨3, [0, 0, 0, 3, 0, 0, 2, 5]⟩ :
      MultiLinearPolynomial (ZMod 101)).partial_evaluate 1 [2, 3] =
      .ok ⟨1, [18, 22]⟩ := by
  constructor
  · obtain ⟨q, hq, _, _⟩ := (claim_c2 (F := ZMod 101)).1 ⟨2, [1, 2, 3, 4]⟩
      0 [5, 6] (by decide) (by decide)
    rw [hq]
    rfl
  · exact (claim_c2 (F := ZMod 101)).2

/-- C3: for every `n_vars` and `target_variable < n_vars`, the shift-based
generator (low indices plus `shift_value`, `high = low + shift_value`) and
the bit-insertion generator produce identical `(low, high)` pair lists of
exactly `2^(n_vars-1)` pairs, and the low and high members together
enumerate every position in `[0, 2^n_vars)` exactly once. -/
theorem claim_c3 (n_vars target_variable : Nat)
    (ht : target_variable < n_vars) :
    generate_pair_vector n_vars target_variable =
      .ok (generate_pair_vector_2 n_vars target_variable) ∧
    (generate_pair_vector_2 n_vars target_variable).length =
      2 ^ (n_vars - 1) ∧
    ((generate_pair_vector_2 n_vars target_variable).flatMap
      (fun pr => [pr.1, pr.2])).Perm (List.range (2 ^ n_vars)) :=
  ⟨generate_pair_vector_eq_index_pair ht, index_pair_length n_vars target_variable,
    index_pair_flat_perm ht⟩

/-- C3 witness: both generators at `n_vars = 3`, `target_variable = 1`. -/
theorem claim_c3_witness :
    generate_pair_vector 3 1 = .ok (generate_pair_vector_2 3 1) ∧
    (generate_pair_vector_2 3 1).length = 2 ^ (3 - 1) ∧
    ((generate_pair_vector_2 3 1).flatMap (fun pr => [pr.1, pr.2])).Perm
      (List.range (2 ^ 3)) :=
  claim_c3 3 1 (by norm_num)

/-- C4 counterexample: at `n_vars = 64` with a length-1 vector, the
constructor does not fail with the length-mismatch error: under debug
assertions the `1 << 64` shift panics, and in release the masked shift
makes the call succeed although the length is not `2^64`. -/
theorem claim_c4_counterexample :
    MultiLinearPolynomial.new_checked 64 ([3] : List (ZMod 101)) =
      .error RtErr.panicked ∧
    MultiLinearPolynomial.new_release 64 ([3] : List (ZMod 101)) =
      .ok ⟨64, [3]⟩ ∧
    ([3] : List (ZMod 101)).length ≠ 2 ^ 64 := by
  decide

/-- C4 amended: for every `n_vars < 64` — every `n_vars` for which the
`usize` shift `1 << n_vars` is defined — `new(n_vars, evaluations)`
succeeds iff `evaluations.len() == 2^n_vars`, failing with the
length-mismatch error otherwise, and on success holds exactly the
supplied vector (`n_vars = 2` with 3 or 2 elements fails, with 4
succeeds); for `n_vars ≥ 64` the check misbehaves: under debug assertions
the shift overflow panics instead of returning an error, and in release
the masked shift makes construction succeed iff
`evaluations.len() == 2^(n_vars mod 64)`. -/
theorem claim_c4_amended {F : Type} [CommRing F] [DecidableEq F] :
    (∀ (n : Nat) (e : List F), n < 64 →
      ((∃ p, MultiLinearPolynomial.new_checked n e = .ok p ∧ p.n_vars = n ∧
          p.evaluations = e) ↔ e.length = 2 ^ n) ∧
      (e.length ≠ 2 ^ n → MultiLinearPolynomial.new_checked n e =
        .error (.err "evaluation vec len should equal 2^n_vars")) ∧
      MultiLinearPolynomial.new_release n e = MultiLinearPolynomial.new n e) ∧
    (∀ (n : Nat) (e : List F), 64 ≤ n →
      MultiLinearPolynomial.new_checked n e = .error RtErr.panicked) ∧
    (∀ (n : Nat) (e : List F),
      MultiLinearPolynomial.new_release n e = .ok ⟨n, e⟩ ↔
        e.length = 2 ^ (n % 64)) ∧
    (∀ a b c d : F,
      MultiLinearPolynomial.new_checked 2 [a, b, c] =
        .error (.err "evaluation vec len should equal 2^n_vars") ∧
      MultiLinearPolynomial.new_checked 2 [a, b] =
        .error (.err "evaluation vec len should equal 2^n_vars") ∧
      MultiLinearPolynomial.new_checked 2 [a, b, c, d] =
        .ok ⟨2, [a, b, c, d]⟩) := by
  refine ⟨fun n e h => ⟨⟨?_, ?_⟩, fun hl => new_checked_eq_error h hl,
      new_release_eq_new h⟩,
    fun n e h => new_checked_overflow e h, fun n e => ⟨?_, ?_⟩,
    fun a b c d => ⟨new_checked_eq_error (by norm_num) (by simp),
      new_checked_eq_error (by norm_num) (by simp),
      new_checked_eq_ok (by norm_num) (by simp)⟩⟩
  · rintro ⟨p, hok, -, -⟩
    by_contra hne
    rw [new_checked_eq_error h hne] at hok
    simp at hok
  · intro hlen
    exact ⟨⟨n, e⟩, new_checked_eq_ok h hlen, rfl, rfl⟩
  · intro hk
    by_contra hne
    unfold MultiLinearPolynomial.new_release at hk
    rw [usizeShlWrapping_one, if_pos hne] at hk
    simp at hk
  · intro hl
    unfold MultiLinearPolynomial.new_release
    rw [usizeShlWrapping_one, if_neg (not_not_intro hl)]

/-- C4 witness: the amended construction check over `ZMod 101`, below and
at the overflow threshold. -/
theorem claim_c4_witness :
    MultiLinearPolynomial.new_checked 2 ([3, 1, 2] : List (ZMod 101)) =
      .error (.err "evaluation vec len should equal 2^n_vars") ∧
    MultiLinearPolynomial.new_checked 2 ([3, 1, 2, 5] : List (ZMod 101)) =
      .ok ⟨2, [3, 1, 2, 5]⟩ ∧
    MultiLinearPolynomial.new_checked 64 ([3] : List (ZMod 101)) =
      .error RtErr.panicked ∧
    MultiLinearPolynomial.new_release 64 ([3] : List (ZMod 101)) =
      .ok ⟨64, [3]⟩ := by
  refine ⟨((claim_c4_amended (F := ZMod 101)).1 2 [3, 1, 2]
      (by norm_num)).2.1 (by decide),
    ((claim_c4_amended (F := ZMod 101)).2.2.2 3 1 2 5).2.2,
    (claim_c4_amended (F := ZMod 101)).2.1 64 [3] (by norm_num),
    ((claim_c4_amended (F := ZMod 101)).2.2.1 64 [3]).mpr (by decide)⟩

/-- C5: `evaluate(xs)` fails with the arity-mismatch error iff
`xs.len() != n_vars` (the model is purely functional, so a failing call
cannot mutate the receiver); with matching arity it returns exactly entry
`[0]` of `partial_evaluate(0, xs)`; on the table `[0,0,0,3,0,0,2,5]` of
`f(a,b,c) = 2ab + 3bc`, `evaluate([2,3,4]) = 48`. -/
theorem claim_c5 {F : Type} [CommRing F] [DecidableEq F] :
    (∀ (p : MultiLinearPolynomial F) (xs : List F), p.wf →
      ((xs.length ≠ p.n_vars →
        p.evaluate xs = .error (.err "evaluate must assign to all variables")) ∧
       (xs.length = p.n_vars →
        ∃ q, p.partial_evaluate 0 xs = .ok q ∧
          p.evaluate xs = .ok (q.evaluations.getD 0 0)))) ∧
    (⟨3, [0, 0, 0, 3, 0, 0, 2, 5]⟩ : MultiLinearPolynomial F).evaluate
      [2, 3, 4] = .ok 48 := by
  constructor
  · intro p xs hwf
    refine ⟨fun h => evaluate_arity_error p xs h, fun h => ?_⟩
    exact ⟨⟨p.n_vars - xs.length, foldSel 0 xs p.evaluations⟩,
      partial_evaluate_ok p hwf 0 xs (by omega), evaluate_ok p hwf xs h⟩
  · have hwf3 : (⟨3, [0, 0, 0, 3, 0, 0, 2, 5]⟩ : MultiLinearPolynomial F).wf := by
      unfold MultiLinearPolynomial.wf
      norm_num
    rw [evaluate_ok _ hwf3 [2, 3, 4] (by simp)]
    have hs1 : selStep 0 (2 : F) [0, 0, 0, 3, 0, 0, 2, 5] =
        [interpStep 2 0 0, interpStep 2 0 0,
         interpStep 2 0 2, interpStep 2 3 5] := by
      simp only [selStep, List.length_cons, List.length_nil, lowFn]
      norm_num
      rw [show List.range 4 = [0, 1, 2, 3] from rfl]
      simp only [List.map_cons, List.map_nil]
      norm_num [List.getD]
    have hs2 : selStep 0 (3 : F)
        [interpStep 2 0 0, interpStep 2 0 0,
         interpStep 2 0 2, interpStep 2 3 5] =
        [interpStep 3 (interpStep 2 0 0) (interpStep 2 0 2),
         interpStep 3 (interpStep 2 0 0) (interpStep 2 3 5)] := by
      simp only [selStep, List.length_cons, List.length_nil, lowFn]
      norm_num
      rw [show List.range 2 = [0, 1] from rfl]
      simp only [List.map_cons, List.map_nil]
      norm_num [List.getD]
    have hs3 : selStep 0 (4 : F)
        [interpStep 3 (interpStep 2 0 0) (interpStep 2 0 2),
         interpStep 3 (interpStep 2 0 0) (interpStep 2 3 5)] =
        [interpStep 4 (interpStep 3 (interpStep 2 0 0) (interpStep 2 0 2))
          (interpStep 3 (interpStep 2 0 0) (interpStep 2 3 5))] := by
      simp only [selStep, List.length_cons, List.length_nil, lowFn]
      norm_num
      rw [show List.range 1 = [0] from rfl]
      simp only [List.map_cons, List.map_nil]
      norm_num [List.getD]
    have h1 : foldSel 0 ([2, 3, 4] : List F) [0, 0, 0, 3, 0, 0, 2, 5] =
        selStep 0 4 (selStep 0 3 (selStep 0 2 [0, 0, 0, 3, 0, 0, 2, 5])) := rfl
    rw [show ((⟨3, [0, 0, 0, 3, 0, 0, 2, 5]⟩ :
        MultiLinearPolynomial F).evaluations) = [0, 0, 0, 3, 0, 0, 2, 5] from rfl,
      h1, hs1, hs2, hs3]
    simp only [List.getD_cons_zero, interpStep_formula]
    norm_num

/-- C5 witness: the arity check and the worked evaluation over `ZMod 101`. -/
theorem claim_c5_witness :
    (⟨2, [1, 2, 3, 4]⟩ : MultiLinearPolynomial (ZMod 101)).evaluate [5] =
      .error (.err "evaluate must assign to all variables") ∧
    (⟨3, [0, 0, 0, 3, 0, 0, 2, 5]⟩ :
      MultiLinearPolynomial (ZMod 101)).evaluate [2, 3, 4] = .ok 48 := by
  refine ⟨((claim_c5 (F := ZMod 101)).1 ⟨2, [1, 2, 3, 4]⟩ [5]
    (by decide)).1 (by decide), (claim_c5 (F := ZMod 101)).2⟩

/-- C10: partial evaluation with an empty assignment list is the identity:
for every well-formed polynomial and every `initial_var`, it succeeds and
returns a polynomial equal to the receiver. -/
theorem claim_c10 {F : Type} [CommRing F] [DecidableEq F]
    (p : MultiLinearPolynomial F) (hwf : p.wf) (initial_var : Nat) :
    p.partial_evaluate initial_var [] = .ok p := by
  obtain ⟨N, evals⟩ := p
  unfold MultiLinearPolynomial.wf at hwf
  simp only at hwf
  have hunfold : MultiLinearPolynomial.partial_evaluate ⟨N, evals⟩
      initial_var [] = (do
      let buf ← peLoop initial_var [] 0 N evals
      let new_n_vars ← usizeSub N 0
      let truncated ← rtSlice buf (1 <<< new_n_vars)
      match MultiLinearPolynomial.new new_n_vars truncated with
      | .ok q => .ok q
      | .error e => .error (.err e)) := rfl
  rw [hunfold,
    show peLoop initial_var ([] : List F) 0 N evals = .ok evals from rfl,
    ok_bind]
  have h2 : usizeSub N 0 = .ok N := by
    unfold usizeSub
    rw [if_pos (Nat.zero_le N), Nat.sub_zero]
  rw [h2, ok_bind]
  have h3 : rtSlice evals (1 <<< N) = .ok evals := by
    unfold rtSlice
    rw [one_shiftLeft_eq, if_pos (le_of_eq hwf.symm),
      show evals.take (2 ^ N) = evals from by
        rw [← hwf]; exact List.take_length evals]
  rw [h3, ok_bind, new_eq_ok hwf]

/-- C10 witness: the empty partial evaluation at an arbitrary
`initial_var` over `ZMod 101`. -/
theorem claim_c10_witness :
    (⟨2, [1, 2, 3, 4]⟩ : MultiLinearPolynomial (ZMod 101)).partial_evaluate
      5 [] = .ok ⟨2, [1, 2, 3, 4]⟩ :=
  claim_c10 ⟨2, [1, 2, 3, 4]⟩ (by decide) 5

/-- C7 counterexample: `partial_evaluate` called with more assignment
values than the polynomial's `n_vars` ends in a panic (`RtErr.panicked`
models the Rust panic from the `usize` underflow at
`self.n_vars - assignments.len()`), not in an explicit error result as the
claim states. -/
theorem claim_c7_counterexample :
    (⟨1, [3, 5]⟩ : MultiLinearPolynomial (ZMod 101)).partial_evaluate
      0 [2, 2] = .error RtErr.panicked := by
  decide

/-- C7 amended: arity-mismatch in `evaluate` and an invalid target
variable given to the shift-based pairing constructor are reported as
explicit failure results, length-mismatch at construction is whenever
`n_vars < 64` (so the `usize` shift in the check is defined), and a
well-formed full-arity `evaluate` cannot fail; but `partial_evaluate`
called with more assignment values than `n_vars` panics instead of
returning an explicit error, and construction with `n_vars ≥ 64` panics
at the `1 << n_vars` shift under debug assertions rather than reporting
the mismatch. -/
theorem claim_c7_amended {F : Type} [CommRing F] [DecidableEq F] :
    (∀ (n : Nat) (e : List F), n < 64 → e.length ≠ 2 ^ n →
      MultiLinearPolynomial.new_checked n e =
        .error (.err "evaluation vec len should equal 2^n_vars")) ∧
    (∀ (p : MultiLinearPolynomial F) (xs : List F), xs.length ≠ p.n_vars →
      p.evaluate xs = .error (.err "evaluate must assign to all variables")) ∧
    (∀ n t : Nat, n ≤ t →
      PairingIndex.new n t = .error "target variable out of range") ∧
    (∀ (p : MultiLinearPolynomial F) (xs : List F), p.wf →
      xs.length = p.n_vars →
      exceptIsOk (p.evaluate xs) = true) ∧
    (∀ (p : MultiLinearPolynomial F) (v : Nat) (xs : List F),
      p.n_vars < xs.length →
      p.partial_evaluate v xs = .error RtErr.panicked) ∧
    (∀ (n : Nat) (e : List F), 64 ≤ n →
      MultiLinearPolynomial.new_checked n e = .error RtErr.panicked) := by
  refine ⟨fun n e hn h => new_checked_eq_error hn h,
    fun p xs h => evaluate_arity_error p xs h,
    fun n t h => ?_,
    fun p xs hwf h => ?_,
    fun p v xs h => partial_evaluate_too_many p v xs h,
    fun n e h => new_checked_overflow e h⟩
  · unfold PairingIndex.new
    rw [if_pos h]
  · rw [evaluate_ok p hwf xs h]
    rfl

/-- C7 witness: each failure mode exercised over `ZMod 101`. -/
theorem claim_c7_witness :
    MultiLinearPolynomial.new_checked 1 ([3, 5, 7] : List (ZMod 101)) =
      .error (.err "evaluation vec len should equal 2^n_vars") ∧
    (⟨1, [3, 5]⟩ : MultiLinearPolynomial (ZMod 101)).evaluate [2, 2, 2] =
      .error (.err "evaluate must assign to all variables") ∧
    PairingIndex.new 2 3 = .error "target variable out of range" ∧
    exceptIsOk ((⟨1, [3, 5]⟩ :
      MultiLinearPolynomial (ZMod 101)).evaluate [9]) = true ∧
    (⟨1, [3, 5]⟩ : MultiLinearPolynomial (ZMod 101)).partial_evaluate
      3 [2, 2, 2] = .error RtErr.panicked ∧
    MultiLinearPolynomial.new_checked 70 ([3, 5] : List (ZMod 101)) =
      .error RtErr.panicked := by
  refine ⟨(claim_c7_amended (F := ZMod 101)).1 1 [3, 5, 7]
      (by norm_num) (by decide),
    (claim_c7_amended (F := ZMod 101)).2.1 ⟨1, [3, 5]⟩ [2, 2, 2] (by decide),
    (claim_c7_amended (F := ZMod 101)).2.2.1 2 3 (by norm_num),
    (claim_c7_amended (F := ZMod 101)).2.2.2.1 ⟨1, [3, 5]⟩ [9]
      (by decide) (by decide),
    (claim_c7_amended (F := ZMod 101)).2.2.2.2.1 ⟨1, [3, 5]⟩ 3 [2, 2, 2]
      (by decide),
    (claim_c7_amended (F := ZMod 101)).2.2.2.2.2 70 [3, 5] (by norm_num)⟩

/-- C8: on a well-formed polynomial with a full assignment list, fixing
the variables one at a time by repeated single-variable `partial_evaluate`
calls (always on the current first variable) reaches a zero-variable
polynomial whose single entry is exactly what one `evaluate` call
returns. -/
theorem claim_c8 {F : Type} [CommRing F] [DecidableEq F]
    (p : MultiLinearPolynomial F) (hwf : p.wf) (xs : List F)
    (hlen : xs.length = p.n_vars) :
    ∃ q : MultiLinearPolynomial F,
      xs.foldlM (fun q x => q.partial_evaluate 0 [x]) p = .ok q ∧
      q.n_vars = 0 ∧
      p.evaluate xs = .ok (q.evaluations.getD 0 0) := by
  refine ⟨⟨p.n_vars - xs.length, foldSel 0 xs p.evaluations⟩,
    foldlM_single_eq xs p hwf (le_of_eq hlen), ?_,
    evaluate_ok p hwf xs hlen⟩
  simp only
  omega

/-- C8 witness: one-variable-at-a-time reduction against `evaluate` on
`f(a,b) = 2a + b` over `ZMod 101`. -/
theorem claim_c8_witness :
    ([2, 3] : List (ZMod 101)).foldlM (fun q x => q.partial_evaluate 0 [x])
      (⟨2, [0, 1, 2, 3]⟩ : MultiLinearPolynomial (ZMod 101)) =
      .ok ⟨0, [7]⟩ ∧
    (⟨2, [0, 1, 2, 3]⟩ : MultiLinearPolynomial (ZMod 101)).evaluate [2, 3] =
      .ok 7 := by
  obtain ⟨q, hfold, hn, heval⟩ := claim_c8
    (⟨2, [0, 1, 2, 3]⟩ : MultiLinearPolynomial (ZMod 101))
    (by decide) [2, 3] (by decide)
  have hq : q = (⟨0, [7]⟩ : MultiLinearPolynomial (ZMod 101)) := by
    have h2 : ([2, 3] : List (ZMod 101)).foldlM
        (fun q x => q.partial_evaluate 0 [x])
        (⟨2, [0, 1, 2, 3]⟩ : MultiLinearPolynomial (ZMod 101)) =
        .ok ⟨0, [7]⟩ := by decide
    rw [hfold] at h2
    injection h2
  subst hq
  exact ⟨hfold, by rw [heval]; rfl⟩

/-- C9: `to_bytes()` is the concatenation, in evaluation-vector order, of
each element's serialized bytes (the fixed-width big-endian encoding is an
external capability, passed as `ser` with width `W`): it depends only on
the evaluation vector, peels one element's bytes at a time in order, and
a well-formed polynomial serializes to exactly `2^n_vars * W` bytes. -/
theorem claim_c9 {F : Type} (ser : F → List Nat) (W : Nat)
    (hW : ∀ x, (ser x).length = W) :
    (∀ p q : MultiLinearPolynomial F, p.evaluations = q.evaluations →
      p.to_bytes ser = q.to_bytes ser) ∧
    (∀ (n : Nat) (x : F) (rest : List F),
      (⟨n, x :: rest⟩ : MultiLinearPolynomial F).to_bytes ser =
        ser x ++ (⟨n, rest⟩ : MultiLinearPolynomial F).to_bytes ser) ∧
    (∀ p : MultiLinearPolynomial F, p.wf →
      (p.to_bytes ser).length = 2 ^ p.n_vars * W) := by
  refine ⟨fun p q h => ?_, fun n x rest => ?_, fun p hwf => ?_⟩
  · unfold MultiLinearPolynomial.to_bytes
    rw [h]
  · unfold MultiLinearPolynomial.to_bytes
    simp only [List.map_cons, List.flatten_cons]
  · unfold MultiLinearPolynomial.to_bytes
    rw [List.length_flatten, List.map_map]
    have h1 : p.evaluations.map (List.length ∘ ser) =
        List.replicate p.evaluations.length W := by
      rw [show List.length ∘ ser = fun _ => W from funext fun x => hW x]
      exact List.map_const' _ W
    rw [h1, List.sum_replicate, smul_eq_mul, hwf]

/-- C9 witness: a width-2 serializer over `ZMod 101` on a two-element
polynomial. -/
theorem claim_c9_witness :
    ((⟨1, [3, 5]⟩ : MultiLinearPolynomial (ZMod 101)).to_bytes
      (fun x => [x.val / 10, x.val % 10])).length = 2 ^ 1 * 2 ∧
    (⟨1, [3, 5]⟩ : MultiLinearPolynomial (ZMod 101)).to_bytes
      (fun x => [x.val / 10, x.val % 10]) = [0, 3, 0, 5] := by
  constructor
  · exact (claim_c9 (fun x : ZMod 101 => [x.val / 10, x.val % 10]) 2
      (fun x => rfl)).2.2 ⟨1, [3, 5]⟩ (by decide)
  · decide
